import Mathlib

/-!
Verification of the recurrent-network layer library (rnn_layers.py).

The numpy tensors are embedded as real-valued functions over `Fin`
index types: a batch matrix of shape (N, D) becomes `Fin N → Fin D → ℝ`,
a bias vector of shape (H,) becomes `Fin H → ℝ`, and a sequence tensor
of shape (N, T, D) becomes a time-indexed family `Nat → Fin N → Fin D → ℝ`
(only indices below the sequence length are ever read).  Floating point
arithmetic of the source is modelled by exact real arithmetic; `np.exp`,
`np.tanh` and `np.log` become `Real.exp`, `Real.tanh` and `Real.log`.
Each python function is translated into a Lean definition of the same
name, and the theorems below settle the specification claims about them.
-/

namespace CS231n

noncomputable section

/-- Vector of length `n`, embedding a 1-D numpy array. -/
abbrev Vec (n : Nat) : Type := Fin n → ℝ

/-- Matrix of shape (m, n), embedding a 2-D numpy array. -/
abbrev Mat (m n : Nat) : Type := Fin m → Fin n → ℝ

/-- Matrix product, embedding `A.dot(B)`. -/
def matmul {m k n : Nat} (A : Mat m k) (B : Mat k n) : Mat m n :=
  fun i j => ∑ l, A i l * B l j

/-- Matrix transpose, embedding `A.T`. -/
def tr {m n : Nat} (A : Mat m n) : Mat n m :=
  fun i j => A j i

/-- Column sums, embedding `np.sum(A, axis=0)`. -/
def colSum {m n : Nat} (A : Mat m n) : Vec n :=
  fun j => ∑ i, A i j

/-- Numerically stable logistic sigmoid from the source: on the mask
`x >= 0` the element is computed as `1 / (1 + exp (-x))` (`top = 1`,
`z = exp (-x)`), and on the mask `x < 0` as `exp x / (1 + exp x)`
(`top = exp x`, `z = exp x`). -/
def sigmoid (x : ℝ) : ℝ :=
  if 0 ≤ x then 1 / (1 + Real.exp (-x)) else Real.exp x / (1 + Real.exp x)

/-- Column index of position `h` inside gate slice `k` of a width `4*H`
gate block: slice `k` occupies columns `k*H` to `(k+1)*H - 1`. -/
def gidx {H : Nat} (k : Fin 4) (h : Fin H) : Fin (4 * H) :=
  ⟨k.val * H + h.val, by
    have h1 : k.val * H + h.val < (k.val + 1) * H := by
      rw [Nat.succ_mul]; exact Nat.add_lt_add_left h.isLt _
    exact lt_of_lt_of_le h1 (Nat.mul_le_mul_right H k.isLt)⟩

/-- Gate slice `k` of a width `4*H` block, embedding `A[:, k*H:(k+1)*H]`. -/
def slice {N H : Nat} (k : Fin 4) (A : Mat N (4 * H)) : Mat N H :=
  fun n h => A n (gidx k h)

/-- Assembly of four (N, H) blocks into one (N, 4H) block, embedding the
slice assignments `gate[:, 0:H] = ...` through `gate[:, 3*H:] = ...`. -/
def concat4 {N H : Nat} (Ai Af Ao Ag : Mat N H) : Mat N (4 * H) :=
  fun n j =>
    if hj : j.val < H then Ai n ⟨j.val, hj⟩
    else if hj2 : j.val < 2 * H then Af n ⟨j.val - H, by omega⟩
    else if hj3 : j.val < 3 * H then Ao n ⟨j.val - 2 * H, by omega⟩
    else Ag n ⟨j.val - 3 * H, by
      have := j.isLt
      omega⟩

/-- Cache of `rnn_step_forward`: the tuple `(x, prev_h, Wx, Wh, next_h)`. -/
structure RNNCache (N D H : Nat) where
  x : Mat N D
  prev_h : Mat N H
  Wx : Mat D H
  Wh : Mat H H
  next_h : Mat N H

/-- Single vanilla RNN timestep:
`next_h = np.tanh(x.dot(Wx) + prev_h.dot(Wh) + b)`,
cache `(x, prev_h, Wx, Wh, next_h)`. -/
def rnn_step_forward {N D H : Nat} (x : Mat N D) (prev_h : Mat N H)
    (Wx : Mat D H) (Wh : Mat H H) (b : Vec H) : Mat N H × RNNCache N D H :=
  let next_h : Mat N H := fun n h => Real.tanh (matmul x Wx n h + matmul prev_h Wh n h + b h)
  (next_h, ⟨x, prev_h, Wx, Wh, next_h⟩)

/-- Single vanilla RNN backward step.  Returns the tuple
`(dx, dprev_h, dWx, dWh, db)` computed from
`dnext_h_input = dnext_h * (1 - next_h ** 2)`. -/
def rnn_step_backward {N D H : Nat} (dnext_h : Mat N H) (c : RNNCache N D H) :
    Mat N D × Mat N H × Mat D H × Mat H H × Vec H :=
  let dnext_h_input : Mat N H := fun n h => dnext_h n h * (1 - c.next_h n h ^ 2)
  (matmul dnext_h_input (tr c.Wx),
   matmul dnext_h_input (tr c.Wh),
   matmul (tr c.x) dnext_h_input,
   matmul (tr c.prev_h) dnext_h_input,
   colSum dnext_h_input)

/-- Loop body of `rnn_forward`: `fuel` counts the remaining iterations of
`for t in xrange(T)`, `t` is the current loop index, `prev_h` the threaded
hidden state, `hacc` and `cacc` the output array `h` and the cache list. -/
def rnn_forward_go {N D H : Nat} (x : Nat → Mat N D)
    (Wx : Mat D H) (Wh : Mat H H) (b : Vec H) :
    Nat → Nat → Mat N H → (Nat → Mat N H) → (Nat → RNNCache N D H) →
      (Nat → Mat N H) × (Nat → RNNCache N D H)
  | 0, _, _, hacc, cacc => (hacc, cacc)
  | fuel + 1, t, prev_h, hacc, cacc =>
      let r := rnn_step_forward (x t) prev_h Wx Wh b
      rnn_forward_go x Wx Wh b fuel (t + 1) r.1
        (fun s => if s = t then r.1 else hacc s)
        (fun s => if s = t then r.2 else cacc s)

/-- Vanilla RNN forward over a sequence of length `T`: the output array
starts as zeros, `prev_h` starts as `h0`, and the loop stores each step
output and cache at index `t`. -/
def rnn_forward {N D H : Nat} (T : Nat) (x : Nat → Mat N D) (h0 : Mat N H)
    (Wx : Mat D H) (Wh : Mat H H) (b : Vec H) :
    (Nat → Mat N H) × (Nat → RNNCache N D H) :=
  rnn_forward_go x Wx Wh b T 0 h0 (fun _ => 0) (fun _ => ⟨0, 0, 0, 0, 0⟩)

/-- Loop body of `rnn_backward`: processes timesteps `t, t-1, ..., 0`,
threading the incoming hidden-state gradient `dnext_h` and accumulating
`dx`, `dWx`, `dWh`, `db`; the second component of the result is `dh0`,
the `dprev_h` produced by the final (t = 0) step. -/
def rnn_backward_go {N D H : Nat} (dh : Nat → Mat N H) (cache : Nat → RNNCache N D H) :
    Nat → Mat N H → (Nat → Mat N D) × Mat N H × Mat D H × Mat H H × Vec H
  | 0, dnext_h =>
      let r := rnn_step_backward dnext_h (cache 0)
      (fun s => if s = 0 then r.1 else 0, r.2.1, r.2.2.1, r.2.2.2.1, r.2.2.2.2)
  | t + 1, dnext_h =>
      let r := rnn_step_backward dnext_h (cache (t + 1))
      let rest := rnn_backward_go dh cache t (fun n h => dh t n h + r.2.1 n h)
      (fun s => if s = t + 1 then r.1 else rest.1 s,
       rest.2.1,
       rest.2.2.1 + r.2.2.1,
       rest.2.2.2.1 + r.2.2.2.1,
       rest.2.2.2.2 + r.2.2.2.2)

/-- Vanilla RNN backward over a sequence of length `T`.  As in the source,
the initial incoming gradient is `dh[:, -1, :]`, i.e. `dh (T - 1)`, and
the loop runs `for t in xrange(T - 1, -1, -1)`. -/
def rnn_backward {N D H : Nat} (T : Nat) (dh : Nat → Mat N H)
    (cache : Nat → RNNCache N D H) :
    (Nat → Mat N D) × Mat N H × Mat D H × Mat H H × Vec H :=
  rnn_backward_go dh cache (T - 1) (dh (T - 1))

/-- Cache of `lstm_step_forward`: the tuple
`(x, prev_h, prev_c, gate, next_c, Wx, Wh, b)`, where `gate` is the
(N, 4H) block of post-activation gate values. -/
structure LSTMCache (N D H : Nat) where
  x : Mat N D
  prev_h : Mat N H
  prev_c : Mat N H
  gate : Mat N (4 * H)
  next_c : Mat N H
  Wx : Mat D (4 * H)
  Wh : Mat H (4 * H)
  b : Vec (4 * H)

/-- Pre-activation of the LSTM step: `a = x.dot(Wx) + prev_h.dot(Wh) + b`,
of shape (N, 4H). -/
def preact {N D H : Nat} (x : Mat N D) (prev_h : Mat N H)
    (Wx : Mat D (4 * H)) (Wh : Mat H (4 * H)) (b : Vec (4 * H)) : Mat N (4 * H) :=
  fun n j => matmul x Wx n j + matmul prev_h Wh n j + b j

/-- Single LSTM timestep: the pre-activation is sliced into the four gates
(`sigmoid` on slices 0, 1, 2; `np.tanh` on slice 3), the gate block is
reassembled from the four slices, and
`next_c = prev_c * gate_f + gate_g * gate_i`,
`next_h = np.tanh(next_c) * gate_o`. -/
def lstm_step_forward {N D H : Nat} (x : Mat N D) (prev_h prev_c : Mat N H)
    (Wx : Mat D (4 * H)) (Wh : Mat H (4 * H)) (b : Vec (4 * H)) :
    Mat N H × Mat N H × LSTMCache N D H :=
  let a := preact x prev_h Wx Wh b
  let gate_i : Mat N H := fun n h => sigmoid (slice 0 a n h)
  let gate_f : Mat N H := fun n h => sigmoid (slice 1 a n h)
  let gate_o : Mat N H := fun n h => sigmoid (slice 2 a n h)
  let gate_g : Mat N H := fun n h => Real.tanh (slice 3 a n h)
  let gate : Mat N (4 * H) := concat4 gate_i gate_f gate_o gate_g
  let next_c : Mat N H := fun n h => prev_c n h * gate_f n h + gate_g n h * gate_i n h
  let next_h : Mat N H := fun n h => Real.tanh (next_c n h) * gate_o n h
  (next_h, next_c, ⟨x, prev_h, prev_c, gate, next_c, Wx, Wh, b⟩)

/-- Contents of the buffer passed as `dnext_c` after `lstm_step_backward`
returns.  The source updates its argument in place with
`dnext_c += dnext_h * gate_o * (1 - np.tanh(next_c) ** 2)`, so the array
the caller passed in ends up holding this value. -/
def lstm_step_backward_dnextc_after {N D H : Nat} (dnext_h dnext_c : Mat N H)
    (c : LSTMCache N D H) : Mat N H :=
  fun n h => dnext_c n h + dnext_h n h * slice 2 c.gate n h * (1 - Real.tanh (c.next_c n h) ^ 2)

/-- The `dgate_input` block of `lstm_step_backward` (source lines 341-359):
per-gate gradients `dgate_i = dnext_c * gate_g`, `dgate_f = dnext_c * prev_c`,
`dgate_o = dnext_h * np.tanh(next_c)`, `dgate_g = dnext_c * gate_i` (with
`dnext_c` the in-place updated cell gradient), pushed through the local
derivative of each activation and written into the four gate slices. -/
def lstm_dgate_input {N D H : Nat} (dnext_h dnext_c : Mat N H)
    (c : LSTMCache N D H) : Mat N (4 * H) :=
  let gate_i := slice 0 c.gate
  let gate_f := slice 1 c.gate
  let gate_o := slice 2 c.gate
  let gate_g := slice 3 c.gate
  let dnc := lstm_step_backward_dnextc_after dnext_h dnext_c c
  let dgate_i : Mat N H := fun n h => dnc n h * gate_g n h
  let dgate_f : Mat N H := fun n h => dnc n h * c.prev_c n h
  let dgate_o : Mat N H := fun n h => dnext_h n h * Real.tanh (c.next_c n h)
  let dgate_g : Mat N H := fun n h => dnc n h * gate_i n h
  let dgate_i_input : Mat N H := fun n h => dgate_i n h * gate_i n h * (1 - gate_i n h)
  let dgate_f_input : Mat N H := fun n h => dgate_f n h * gate_f n h * (1 - gate_f n h)
  let dgate_o_input : Mat N H := fun n h => dgate_o n h * gate_o n h * (1 - gate_o n h)
  let dgate_g_input : Mat N H := fun n h => dgate_g n h * (1 - gate_g n h ^ 2)
  concat4 dgate_i_input dgate_f_input dgate_o_input dgate_g_input

/-- Single LSTM backward step.  Returns `(dx, dprev_h, dprev_c, dWx, dWh, db)`.
The updated cell gradient (the in-place `dnext_c += ...` of the source) is
`lstm_step_backward_dnextc_after dnext_h dnext_c c`. -/
def lstm_step_backward {N D H : Nat} (dnext_h dnext_c : Mat N H)
    (c : LSTMCache N D H) :
    Mat N D × Mat N H × Mat N H × Mat D (4 * H) × Mat H (4 * H) × Vec (4 * H) :=
  let gate_f := slice 1 c.gate
  let dnc := lstm_step_backward_dnextc_after dnext_h dnext_c c
  let dgate_input := lstm_dgate_input dnext_h dnext_c c
  (matmul dgate_input (tr c.Wx),
   matmul dgate_input (tr c.Wh),
   fun n h => dnc n h * gate_f n h,
   matmul (tr c.x) dgate_input,
   matmul (tr c.prev_h) dgate_input,
   colSum dgate_input)

/-- Loop body of `lstm_forward`: like `rnn_forward_go` but threading the
cell state `prev_c` as well. -/
def lstm_forward_go {N D H : Nat} (x : Nat → Mat N D)
    (Wx : Mat D (4 * H)) (Wh : Mat H (4 * H)) (b : Vec (4 * H)) :
    Nat → Nat → Mat N H → Mat N H → (Nat → Mat N H) → (Nat → LSTMCache N D H) →
      (Nat → Mat N H) × (Nat → LSTMCache N D H)
  | 0, _, _, _, hacc, cacc => (hacc, cacc)
  | fuel + 1, t, prev_h, prev_c, hacc, cacc =>
      let r := lstm_step_forward (x t) prev_h prev_c Wx Wh b
      lstm_forward_go x Wx Wh b fuel (t + 1) r.1 r.2.1
        (fun s => if s = t then r.1 else hacc s)
        (fun s => if s = t then r.2.2 else cacc s)

/-- LSTM forward over a sequence of length `T`: `prev_h` starts as `h0`
and `prev_c` starts as `np.zeros_like(prev_h)`; the caller never supplies
an initial cell state. -/
def lstm_forward {N D H : Nat} (T : Nat) (x : Nat → Mat N D) (h0 : Mat N H)
    (Wx : Mat D (4 * H)) (Wh : Mat H (4 * H)) (b : Vec (4 * H)) :
    (Nat → Mat N H) × (Nat → LSTMCache N D H) :=
  lstm_forward_go x Wx Wh b T 0 h0 0 (fun _ => 0) (fun _ => ⟨0, 0, 0, 0, 0, 0, 0, 0⟩)

/-- Loop body of `lstm_backward`: threads the hidden gradient `dnext_h`
and the cell gradient `dnext_c` backward across timesteps and accumulates
`dx`, `dWx`, `dWh`, `db`. -/
def lstm_backward_go {N D H : Nat} (dh : Nat → Mat N H) (cache : Nat → LSTMCache N D H) :
    Nat → Mat N H → Mat N H →
      (Nat → Mat N D) × Mat N H × Mat D (4 * H) × Mat H (4 * H) × Vec (4 * H)
  | 0, dnext_h, dnext_c =>
      let r := lstm_step_backward dnext_h dnext_c (cache 0)
      (fun s => if s = 0 then r.1 else 0, r.2.1, r.2.2.2.1, r.2.2.2.2.1, r.2.2.2.2.2)
  | t + 1, dnext_h, dnext_c =>
      let r := lstm_step_backward dnext_h dnext_c (cache (t + 1))
      let rest := lstm_backward_go dh cache t (fun n h => dh t n h + r.2.1 n h) r.2.2.1
      (fun s => if s = t + 1 then r.1 else rest.1 s,
       rest.2.1,
       rest.2.2.1 + r.2.2.2.1,
       rest.2.2.2.1 + r.2.2.2.2.1,
       rest.2.2.2.2 + r.2.2.2.2.2)

/-- LSTM backward over a sequence of length `T`: the initial incoming
hidden gradient is `dh (T - 1)` and the initial cell gradient is zeros. -/
def lstm_backward {N D H : Nat} (T : Nat) (dh : Nat → Mat N H)
    (cache : Nat → LSTMCache N D H) :
    (Nat → Mat N D) × Mat N H × Mat D (4 * H) × Mat H (4 * H) × Vec (4 * H) :=
  lstm_backward_go dh cache (T - 1) (dh (T - 1)) 0

/-- Total model of `rnn_backward` as called on a length `T` input: for
`T = 0` the source raises (`cache[0]` on an empty list, `dh[:, -1, :]` on
an empty time axis) instead of returning, modelled by `none`. -/
def rnn_backward_checked {N D H : Nat} (T : Nat) (dh : Nat → Mat N H)
    (cache : Nat → RNNCache N D H) :
    Option ((Nat → Mat N D) × Mat N H × Mat D H × Mat H H × Vec H) :=
  if 0 < T then some (rnn_backward T dh cache) else none

/-- Total model of `lstm_backward` as called on a length `T` input: for
`T = 0` the source raises instead of returning, modelled by `none`. -/
def lstm_backward_checked {N D H : Nat} (T : Nat) (dh : Nat → Mat N H)
    (cache : Nat → LSTMCache N D H) :
    Option ((Nat → Mat N D) × Mat N H × Mat D (4 * H) × Mat H (4 * H) × Vec (4 * H)) :=
  if 0 < T then some (lstm_backward T dh cache) else none

/-- One in-place accumulation `dW[vIdx, :] += row` of `np.add.at`. -/
def scatterAdd {V Dd : Nat} (A : Mat V Dd) (vIdx : Fin V) (row : Vec Dd) : Mat V Dd :=
  fun v d => if v = vIdx then A v d + row d else A v d

/-- Word embedding forward: `out = W[x, :]`, cache `(x, W)`. -/
def word_embedding_forward {N T V Dd : Nat} (x : Fin N → Fin T → Fin V) (W : Mat V Dd) :
    (Fin N → Fin T → Fin Dd → ℝ) × ((Fin N → Fin T → Fin V) × Mat V Dd) :=
  (fun n t d => W (x n t) d, (x, W))

/-- Word embedding backward: `dW = np.zeros_like(W)` followed by
`np.add.at(dW, x, dout)`, i.e. an in-place `dW[x[n, t]] += dout[n, t]`
for every pair `(n, t)` in row-major order, accumulating duplicates. -/
def word_embedding_backward {N T V Dd : Nat} (dout : Fin N → Fin T → Fin Dd → ℝ)
    (cache : (Fin N → Fin T → Fin V) × Mat V Dd) : Mat V Dd :=
  (List.finRange N).foldl
    (fun dW n =>
      (List.finRange T).foldl
        (fun dW2 t => scatterAdd dW2 (cache.1 n t) (fun d => dout n t d)) dW)
    0

/-- Row index `n` recovered from a flattened `(N*T)` row index, as in
`x.reshape(N * T, V)` row-major flattening. -/
def unflat1 {N T : Nat} (r : Fin (N * T)) : Fin N :=
  ⟨r.val / T, by
    rcases Nat.eq_zero_or_pos T with hT | hT
    · subst hT
      exact absurd r.isLt (by simp)
    · refine Nat.div_lt_of_lt_mul ?_
      have h := r.isLt
      have hc : N * T = T * N := Nat.mul_comm N T
      omega⟩

/-- Timestep index `t` recovered from a flattened `(N*T)` row index. -/
def unflat2 {N T : Nat} (r : Fin (N * T)) : Fin T :=
  ⟨r.val % T, by
    rcases Nat.eq_zero_or_pos T with hT | hT
    · subst hT
      exact absurd r.isLt (by simp)
    · exact Nat.mod_lt _ hT⟩

/-- Flattened row index of the pair `(n, t)` under row-major reshape. -/
def flatIdx {N T : Nat} (n : Fin N) (t : Fin T) : Fin (N * T) :=
  ⟨n.val * T + t.val, by
    have h1 : n.val * T + t.val < (n.val + 1) * T := by
      rw [Nat.succ_mul]; exact Nat.add_lt_add_left t.isLt _
    exact lt_of_lt_of_le h1 (Nat.mul_le_mul_right T n.isLt)⟩

/-- Maximum of a row over the vocabulary axis, embedding
`np.max(x_flat, axis=1)` for one row. -/
def rowMax {V : Nat} [NeZero V] (g : Fin V → ℝ) : ℝ :=
  Finset.univ.sup' ⟨0, Finset.mem_univ 0⟩ g

/-- Temporal softmax loss.  The (N, T, V) scores are flattened row-major
to (N*T, V); each row gets a numerically stable softmax (row max
subtracted before `np.exp`); the loss is the mask-weighted sum of the
negative log-probabilities of the ground-truth classes divided by `N`;
the gradient is `(probs - onehot) / N` zeroed at masked rows and
reshaped back to (N, T, V). -/
def temporal_softmax_loss {N T V : Nat} [NeZero V]
    (x : Fin N → Fin T → Fin V → ℝ) (y : Fin N → Fin T → Fin V)
    (mask : Fin N → Fin T → Bool) : ℝ × (Fin N → Fin T → Fin V → ℝ) :=
  let x_flat := fun (r : Fin (N * T)) (v : Fin V) => x (unflat1 r) (unflat2 r) v
  let y_flat := fun (r : Fin (N * T)) => y (unflat1 r) (unflat2 r)
  let mask_flat := fun (r : Fin (N * T)) => mask (unflat1 r) (unflat2 r)
  let probs := fun (r : Fin (N * T)) (v : Fin V) =>
    Real.exp (x_flat r v - rowMax (x_flat r)) /
      ∑ v2, Real.exp (x_flat r v2 - rowMax (x_flat r))
  let loss := -(∑ r, (if mask_flat r then (1 : ℝ) else 0) * Real.log (probs r (y_flat r))) / N
  let dx_flat := fun (r : Fin (N * T)) (v : Fin V) =>
    (probs r v - if v = y_flat r then 1 else 0) / N * (if mask_flat r then (1 : ℝ) else 0)
  (loss, fun n t v => dx_flat (flatIdx n t) v)

/-- Modelled from the spec (for the refinement claim about sequence
forward): the result of manually chaining `t` calls of
`rnn_step_forward`, feeding each step output hidden state into the next
step; `rnn_chain ... t` is the hidden state after `t` steps. -/
def rnn_chain {N D H : Nat} (x : Nat → Mat N D) (h0 : Mat N H)
    (Wx : Mat D H) (Wh : Mat H H) (b : Vec H) : Nat → Mat N H
  | 0 => h0
  | t + 1 => (rnn_step_forward (x t) (rnn_chain x h0 Wx Wh b t) Wx Wh b).1

/-- Modelled from the spec (for the refinement claim about sequence
forward): manually chaining `t` calls of `lstm_step_forward`, threading
both hidden and cell state, with the initial cell state all zeros. -/
def lstm_chain {N D H : Nat} (x : Nat → Mat N D) (h0 : Mat N H)
    (Wx : Mat D (4 * H)) (Wh : Mat H (4 * H)) (b : Vec (4 * H)) :
    Nat → Mat N H × Mat N H
  | 0 => (h0, 0)
  | t + 1 =>
      let r := lstm_step_forward (x t) (lstm_chain x h0 Wx Wh b t).1
        (lstm_chain x h0 Wx Wh b t).2 Wx Wh b
      (r.1, r.2.1)

/-- Hidden-state gradient fed into the per-step backward calls of
`rnn_backward`, indexed by the distance `k` from the last timestep
`Tm1 = T - 1`: at the last timestep it is `dh Tm1` alone, and `k+1`
steps down it is the external `dh` at that timestep plus the `dprev_h`
returned by the backward call one step up. -/
def rnn_fed {N D H : Nat} (dh : Nat → Mat N H) (cache : Nat → RNNCache N D H)
    (Tm1 : Nat) : Nat → Mat N H
  | 0 => dh Tm1
  | k + 1 => fun n h =>
      dh (Tm1 - (k + 1)) n h +
        (rnn_step_backward (rnn_fed dh cache Tm1 k) (cache (Tm1 - k))).2.1 n h

/-- Concrete all-zero sequence gradient used by witnesses. -/
def wdh : Nat → Mat 1 1 := fun _ => 0

/-- Concrete all-zero RNN step cache used by witnesses. -/
def wRNNCache : RNNCache 1 1 1 := ⟨0, 0, 0, 0, 0⟩

/-- Concrete cache family used by witnesses. -/
def wRNNCaches : Nat → RNNCache 1 1 1 := fun _ => wRNNCache

/-- Concrete all-zero LSTM step cache used by witnesses. -/
def wLSTMCache : LSTMCache 1 1 1 := ⟨0, 0, 0, 0, 0, 0, 0, 0⟩

/-- Concrete cache family used by witnesses. -/
def wLSTMCaches : Nat → LSTMCache 1 1 1 := fun _ => wLSTMCache

/-- LSTM step cache with gate block all ones and `next_c` zero, the
concrete input exhibiting the in-place update of `dnext_c`. -/
def cexLSTMCache : LSTMCache 1 1 1 := ⟨0, 0, 0, fun _ _ => 1, 0, 0, 0, 0⟩

end

/-! Helper lemmas about the gate-block layout. -/

theorem concat4_gidx_zero {N H : Nat} (Ai Af Ao Ag : Mat N H) (n : Fin N) (h : Fin H) :
    concat4 Ai Af Ao Ag n (gidx 0 h) = Ai n h := by
  have hb := h.isLt
  have hv : (gidx (H := H) (0 : Fin 4) h).val = 0 * H + h.val := rfl
  have hlt : (gidx (H := H) (0 : Fin 4) h).val < H := by omega
  simp only [concat4]
  rw [dif_pos hlt]
  congr 1
  apply Fin.ext
  show (gidx (H := H) (0 : Fin 4) h).val = h.val
  omega

theorem concat4_gidx_one {N H : Nat} (Ai Af Ao Ag : Mat N H) (n : Fin N) (h : Fin H) :
    concat4 Ai Af Ao Ag n (gidx 1 h) = Af n h := by
  have hb := h.isLt
  have hv : (gidx (H := H) (1 : Fin 4) h).val = 1 * H + h.val := rfl
  have h1 : ¬ (gidx (H := H) (1 : Fin 4) h).val < H := by omega
  have h2 : (gidx (H := H) (1 : Fin 4) h).val < 2 * H := by omega
  simp only [concat4]
  rw [dif_neg h1, dif_pos h2]
  congr 1
  apply Fin.ext
  show (gidx (H := H) (1 : Fin 4) h).val - H = h.val
  omega

theorem concat4_gidx_two {N H : Nat} (Ai Af Ao Ag : Mat N H) (n : Fin N) (h : Fin H) :
    concat4 Ai Af Ao Ag n (gidx 2 h) = Ao n h := by
  have hb := h.isLt
  have hv : (gidx (H := H) (2 : Fin 4) h).val = 2 * H + h.val := rfl
  have h1 : ¬ (gidx (H := H) (2 : Fin 4) h).val < H := by omega
  have h2 : ¬ (gidx (H := H) (2 : Fin 4) h).val < 2 * H := by omega
  have h3 : (gidx (H := H) (2 : Fin 4) h).val < 3 * H := by omega
  simp only [concat4]
  rw [dif_neg h1, dif_neg h2, dif_pos h3]
  congr 1
  apply Fin.ext
  show (gidx (H := H) (2 : Fin 4) h).val - 2 * H = h.val
  omega

theorem concat4_gidx_three {N H : Nat} (Ai Af Ao Ag : Mat N H) (n : Fin N) (h : Fin H) :
    concat4 Ai Af Ao Ag n (gidx 3 h) = Ag n h := by
  have hb := h.isLt
  have hv : (gidx (H := H) (3 : Fin 4) h).val = 3 * H + h.val := rfl
  have h1 : ¬ (gidx (H := H) (3 : Fin 4) h).val < H := by omega
  have h2 : ¬ (gidx (H := H) (3 : Fin 4) h).val < 2 * H := by omega
  have h3 : ¬ (gidx (H := H) (3 : Fin 4) h).val < 3 * H := by omega
  simp only [concat4]
  rw [dif_neg h1, dif_neg h2, dif_neg h3]
  congr 1
  apply Fin.ext
  show (gidx (H := H) (3 : Fin 4) h).val - 3 * H = h.val
  omega

/-! Helper lemmas about row-major flattening. -/

theorem unflat1_flatIdx {N T : Nat} (n : Fin N) (t : Fin T) :
    unflat1 (flatIdx n t) = n := by
  apply Fin.ext
  show (n.val * T + t.val) / T = n.val
  have ht := t.isLt
  rw [Nat.add_comm, Nat.add_mul_div_right _ _ t.pos, Nat.div_eq_of_lt ht, Nat.zero_add]

theorem unflat2_flatIdx {N T : Nat} (n : Fin N) (t : Fin T) :
    unflat2 (flatIdx n t) = t := by
  apply Fin.ext
  show (n.val * T + t.val) % T = t.val
  rw [Nat.mul_comm (n.val) T, Nat.mul_add_mod, Nat.mod_eq_of_lt t.isLt]

theorem flatIdx_unflat {N T : Nat} (r : Fin (N * T)) :
    flatIdx (unflat1 r) (unflat2 r) = r := by
  apply Fin.ext
  show r.val / T * T + r.val % T = r.val
  have h := Nat.div_add_mod r.val T
  rw [Nat.mul_comm T (r.val / T)] at h
  exact h

theorem sum_flatten {N T : Nat} (f : Fin (N * T) → ℝ) :
    (∑ r, f r) = ∑ n, ∑ t, f (flatIdx n t) := by
  let e : (Fin N × Fin T) ≃ Fin (N * T) :=
    ⟨fun p => flatIdx p.1 p.2, fun r => (unflat1 r, unflat2 r),
     fun p => Prod.ext (unflat1_flatIdx p.1 p.2) (unflat2_flatIdx p.1 p.2),
     fun r => flatIdx_unflat r⟩
  rw [← Equiv.sum_comp e f, Fintype.sum_prod_type]
  rfl

/-- C8: `sigmoid` equals the logistic function `1 / (1 + exp (-x))`: for
`x ≥ 0` it is computed with `exp (-x)` in the denominator, for `x < 0`
via the numerator form `exp x / (1 + exp x)`, and the two branches agree
with the logistic function; moreover `sigmoid 0 = 1/2`, `sigmoid` is
strictly increasing, and its output always lies within `[0, 1]`. -/
theorem sigmoid_spec :
    (∀ x : ℝ, 0 ≤ x → sigmoid x = 1 / (1 + Real.exp (-x))) ∧
    (∀ x : ℝ, x < 0 → sigmoid x = Real.exp x / (1 + Real.exp x)) ∧
    (∀ x : ℝ, sigmoid x = 1 / (1 + Real.exp (-x))) ∧
    sigmoid 0 = 1 / 2 ∧
    StrictMono sigmoid ∧
    (∀ x : ℝ, 0 ≤ sigmoid x ∧ sigmoid x ≤ 1) := by
  have hclosed : ∀ x : ℝ, sigmoid x = 1 / (1 + Real.exp (-x)) := by
    intro x
    unfold sigmoid
    split_ifs with hx
    · rfl
    · have e1 : (0 : ℝ) < 1 + Real.exp (-x) := by positivity
      have e2 : (0 : ℝ) < 1 + Real.exp x := by positivity
      rw [div_eq_div_iff e2.ne' e1.ne']
      have key : Real.exp x * Real.exp (-x) = 1 := by
        rw [← Real.exp_add]; simp
      linear_combination key
  refine ⟨fun x hx => by unfold sigmoid; rw [if_pos hx],
          fun x hx => by unfold sigmoid; rw [if_neg (not_le.mpr hx)],
          hclosed, ?_, ?_, ?_⟩
  · rw [hclosed 0, neg_zero, Real.exp_zero]; norm_num
  · intro a b hab
    rw [hclosed a, hclosed b]
    have e1 : (0 : ℝ) < 1 + Real.exp (-a) := by positivity
    have e2 : (0 : ℝ) < 1 + Real.exp (-b) := by positivity
    rw [div_lt_div_iff₀ e1 e2]
    have hee : Real.exp (-b) < Real.exp (-a) := Real.exp_lt_exp.mpr (by linarith)
    linarith
  · intro x
    rw [hclosed x]
    have e1 : (0 : ℝ) < 1 + Real.exp (-x) := by positivity
    constructor
    · positivity
    · rw [div_le_one e1]
      have := Real.exp_pos (-x)
      linarith

/-- Witness for C8 at the concrete input `x = 1`. -/
theorem sigmoid_spec_witness :
    (0 : ℝ) ≤ 1 ∧ sigmoid 1 = 1 / (1 + Real.exp (-1)) :=
  ⟨by norm_num, sigmoid_spec.1 1 (by norm_num)⟩

/-- C1: `lstm_step_forward` computes the pre-activation
`a = x·Wx + prev_h·Wh + b`, splits it into four contiguous (N, H) slices
in the fixed order input, forget, output, block-input (slices 0, 1, 2, 3),
applies `sigmoid` to the first three and `tanh` to the last, returns
`next_c = prev_c * f + g * i` and `next_h = tanh(next_c) * o`, and caches
`(x, prev_h, prev_c, gate block of post-activation values, next_c, Wx, Wh, b)`. -/
theorem lstm_step_forward_spec {N D H : Nat} (x : Mat N D) (prev_h prev_c : Mat N H)
    (Wx : Mat D (4 * H)) (Wh : Mat H (4 * H)) (b : Vec (4 * H)) :
    (∀ n j, preact x prev_h Wx Wh b n j
        = (∑ d, x n d * Wx d j) + (∑ h2, prev_h n h2 * Wh h2 j) + b j) ∧
    (∀ n h, (lstm_step_forward x prev_h prev_c Wx Wh b).2.1 n h
        = prev_c n h * sigmoid (preact x prev_h Wx Wh b n (gidx 1 h))
          + Real.tanh (preact x prev_h Wx Wh b n (gidx 3 h))
            * sigmoid (preact x prev_h Wx Wh b n (gidx 0 h))) ∧
    (∀ n h, (lstm_step_forward x prev_h prev_c Wx Wh b).1 n h
        = Real.tanh ((lstm_step_forward x prev_h prev_c Wx Wh b).2.1 n h)
          * sigmoid (preact x prev_h Wx Wh b n (gidx 2 h))) ∧
    (lstm_step_forward x prev_h prev_c Wx Wh b).2.2.x = x ∧
    (lstm_step_forward x prev_h prev_c Wx Wh b).2.2.prev_h = prev_h ∧
    (lstm_step_forward x prev_h prev_c Wx Wh b).2.2.prev_c = prev_c ∧
    (∀ n h, (lstm_step_forward x prev_h prev_c Wx Wh b).2.2.gate n (gidx 0 h)
        = sigmoid (preact x prev_h Wx Wh b n (gidx 0 h))) ∧
    (∀ n h, (lstm_step_forward x prev_h prev_c Wx Wh b).2.2.gate n (gidx 1 h)
        = sigmoid (preact x prev_h Wx Wh b n (gidx 1 h))) ∧
    (∀ n h, (lstm_step_forward x prev_h prev_c Wx Wh b).2.2.gate n (gidx 2 h)
        = sigmoid (preact x prev_h Wx Wh b n (gidx 2 h))) ∧
    (∀ n h, (lstm_step_forward x prev_h prev_c Wx Wh b).2.2.gate n (gidx 3 h)
        = Real.tanh (preact x prev_h Wx Wh b n (gidx 3 h))) ∧
    (lstm_step_forward x prev_h prev_c Wx Wh b).2.2.next_c
        = (lstm_step_forward x prev_h prev_c Wx Wh b).2.1 ∧
    (lstm_step_forward x prev_h prev_c Wx Wh b).2.2.Wx = Wx ∧
    (lstm_step_forward x prev_h prev_c Wx Wh b).2.2.Wh = Wh ∧
    (lstm_step_forward x prev_h prev_c Wx Wh b).2.2.b = b := by
  refine ⟨fun n j => rfl, fun n h => rfl, fun n h => rfl, rfl, rfl, rfl,
          ?_, ?_, ?_, ?_, rfl, rfl, rfl, rfl⟩
  · intro n h
    simp only [lstm_step_forward]
    rw [concat4_gidx_zero]
    rfl
  · intro n h
    simp only [lstm_step_forward]
    rw [concat4_gidx_one]
    rfl
  · intro n h
    simp only [lstm_step_forward]
    rw [concat4_gidx_two]
    rfl
  · intro n h
    simp only [lstm_step_forward]
    rw [concat4_gidx_three]
    rfl

/-- C2: `lstm_step_backward` computes
`dnext_c = dnext_c_incoming + dnext_h * o * (1 - tanh(next_c)^2)`, the
gate gradients `di = dnext_c * g`, `df = dnext_c * prev_c`,
`do = dnext_h * tanh(next_c)`, `dg = dnext_c * i`, un-activates them into
the gate block in the same i, f, o, g slice order, and returns
`dx = dgate·Wxᵗ`, `dprev_h = dgate·Whᵗ`, `dprev_c = dnext_c * f`,
`dWx = xᵗ·dgate`, `dWh = prev_hᵗ·dgate`, `db = column sums of dgate`. -/
theorem lstm_step_backward_spec {N D H : Nat} (dnext_h dnext_c : Mat N H)
    (c : LSTMCache N D H) :
    (∀ n h, lstm_step_backward_dnextc_after dnext_h dnext_c c n h
        = dnext_c n h
          + dnext_h n h * c.gate n (gidx 2 h) * (1 - Real.tanh (c.next_c n h) ^ 2)) ∧
    (∀ n h, lstm_dgate_input dnext_h dnext_c c n (gidx 0 h)
        = (lstm_step_backward_dnextc_after dnext_h dnext_c c n h * c.gate n (gidx 3 h))
          * c.gate n (gidx 0 h) * (1 - c.gate n (gidx 0 h))) ∧
    (∀ n h, lstm_dgate_input dnext_h dnext_c c n (gidx 1 h)
        = (lstm_step_backward_dnextc_after dnext_h dnext_c c n h * c.prev_c n h)
          * c.gate n (gidx 1 h) * (1 - c.gate n (gidx 1 h))) ∧
    (∀ n h, lstm_dgate_input dnext_h dnext_c c n (gidx 2 h)
        = (dnext_h n h * Real.tanh (c.next_c n h))
          * c.gate n (gidx 2 h) * (1 - c.gate n (gidx 2 h))) ∧
    (∀ n h, lstm_dgate_input dnext_h dnext_c c n (gidx 3 h)
        = (lstm_step_backward_dnextc_after dnext_h dnext_c c n h * c.gate n (gidx 0 h))
          * (1 - c.gate n (gidx 3 h) ^ 2)) ∧
    (∀ n d, (lstm_step_backward dnext_h dnext_c c).1 n d
        = ∑ j, lstm_dgate_input dnext_h dnext_c c n j * c.Wx d j) ∧
    (∀ n h, (lstm_step_backward dnext_h dnext_c c).2.1 n h
        = ∑ j, lstm_dgate_input dnext_h dnext_c c n j * c.Wh h j) ∧
    (∀ n h, (lstm_step_backward dnext_h dnext_c c).2.2.1 n h
        = lstm_step_backward_dnextc_after dnext_h dnext_c c n h * c.gate n (gidx 1 h)) ∧
    (∀ d j, (lstm_step_backward dnext_h dnext_c c).2.2.2.1 d j
        = ∑ n, c.x n d * lstm_dgate_input dnext_h dnext_c c n j) ∧
    (∀ h2 j, (lstm_step_backward dnext_h dnext_c c).2.2.2.2.1 h2 j
        = ∑ n, c.prev_h n h2 * lstm_dgate_input dnext_h dnext_c c n j) ∧
    (∀ j, (lstm_step_backward dnext_h dnext_c c).2.2.2.2.2 j
        = ∑ n, lstm_dgate_input dnext_h dnext_c c n j) := by
  refine ⟨fun n h => rfl, ?_, ?_, ?_, ?_,
          fun n d => rfl, fun n h => rfl, fun n h => rfl,
          fun d j => rfl, fun h2 j => rfl, fun j => rfl⟩
  · intro n h
    simp only [lstm_dgate_input]
    rw [concat4_gidx_zero]
    rfl
  · intro n h
    simp only [lstm_dgate_input]
    rw [concat4_gidx_one]
    rfl
  · intro n h
    simp only [lstm_dgate_input]
    rw [concat4_gidx_two]
    rfl
  · intro n h
    simp only [lstm_dgate_input]
    rw [concat4_gidx_three]
    rfl

/-- C6 counterexample: at the concrete input `dnext_h = 1`, `dnext_c = 0`
with a cache whose gate block is all ones and whose `next_c` is zero, the
array the caller passed as `dnext_c` does not hold the same values after
the call (the in-place `dnext_c += ...` changed its entry to 1). -/
theorem lstm_step_backward_mutates_dnextc :
    lstm_step_backward_dnextc_after (fun _ _ => 1) (fun _ _ => 0) cexLSTMCache
      ≠ (fun _ _ => 0 : Mat 1 1) := by
  intro hEq
  have h0 := congrFun (congrFun hEq 0) 0
  norm_num [lstm_step_backward_dnextc_after, cexLSTMCache, slice,
    Real.tanh_zero] at h0

/-- C6 amended: no layer operation other than `lstm_step_backward`
writes into a caller tensor, and `lstm_step_backward` updates exactly its
`dnext_c` argument in place, leaving that buffer equal to the incoming
value plus `dnext_h * o * (1 - tanh(next_c)^2)`; the gradients it returns
(in particular `dprev_c`) are fresh tensors computed from that updated
buffer. -/
theorem lstm_step_backward_dnextc_inplace {N D H : Nat} (dnext_h dnext_c : Mat N H)
    (c : LSTMCache N D H) :
    (∀ n h, lstm_step_backward_dnextc_after dnext_h dnext_c c n h
        = dnext_c n h
          + dnext_h n h * c.gate n (gidx 2 h) * (1 - Real.tanh (c.next_c n h) ^ 2)) ∧
    (∀ n h, (lstm_step_backward dnext_h dnext_c c).2.2.1 n h
        = lstm_step_backward_dnextc_after dnext_h dnext_c c n h
          * c.gate n (gidx 1 h)) :=
  ⟨fun _ _ => rfl, fun _ _ => rfl⟩

/-- C10: the sequence backward passes are defined only for `T ≥ 1`; on an
empty sequence (`T = 0`) they fail (modelled by `none`) rather than
returning zero gradients, and for `T ≥ 1` they return their result. -/
theorem backward_empty_sequence :
    (∀ (N D H : Nat) (dh : Nat → Mat N H) (cache : Nat → RNNCache N D H),
        rnn_backward_checked 0 dh cache = none) ∧
    (∀ (N D H : Nat) (dh : Nat → Mat N H) (cache : Nat → LSTMCache N D H),
        lstm_backward_checked 0 dh cache = none) ∧
    (∀ (N D H T : Nat) (dh : Nat → Mat N H) (cache : Nat → RNNCache N D H),
        0 < T → rnn_backward_checked T dh cache = some (rnn_backward T dh cache)) ∧
    (∀ (N D H T : Nat) (dh : Nat → Mat N H) (cache : Nat → LSTMCache N D H),
        0 < T → lstm_backward_checked T dh cache = some (lstm_backward T dh cache)) :=
  ⟨fun _ _ _ _ _ => rfl, fun _ _ _ _ _ => rfl,
   fun _ _ _ _ _ _ hT => if_pos hT, fun _ _ _ _ _ _ hT => if_pos hT⟩

/-- Witness for C10 at the concrete length `T = 1`. -/
theorem backward_empty_sequence_witness :
    0 < 1 ∧ rnn_backward_checked 1 wdh wRNNCaches = some (rnn_backward 1 wdh wRNNCaches) :=
  ⟨by norm_num, backward_empty_sequence.2.2.1 1 1 1 1 wdh wRNNCaches (by norm_num)⟩

/-- Folding the inner scatter-add loop over a list of timesteps adds, to
each entry of the accumulator, the sum of the matching contributions. -/
theorem foldl_scatter_inner {N T V Dd : Nat} (x : Fin N → Fin T → Fin V)
    (dout : Fin N → Fin T → Fin Dd → ℝ) (n : Fin N) :
    ∀ (l : List (Fin T)) (A : Mat V Dd) (v : Fin V) (d : Fin Dd),
      (l.foldl (fun acc t => scatterAdd acc (x n t) (fun d2 => dout n t d2)) A) v d
        = A v d + (l.map (fun t => if x n t = v then dout n t d else 0)).sum := by
  intro l
  induction l with
  | nil => intro A v d; simp
  | cons t ts ih =>
      intro A v d
      simp only [List.foldl_cons, List.map_cons, List.sum_cons]
      rw [ih]
      have hstep : scatterAdd A (x n t) (fun d2 => dout n t d2) v d
          = A v d + (if x n t = v then dout n t d else 0) := by
        by_cases hv : v = x n t
        · simp only [scatterAdd]
          rw [if_pos hv, if_pos hv.symm]
        · simp only [scatterAdd]
          rw [if_neg hv, if_neg (fun heq => hv heq.symm), add_zero]
      rw [hstep]
      ring

/-- Folding the outer scatter-add loop over a list of samples adds the
doubly indexed sum of matching contributions. -/
theorem foldl_scatter_outer {N T V Dd : Nat} (x : Fin N → Fin T → Fin V)
    (dout : Fin N → Fin T → Fin Dd → ℝ) :
    ∀ (l : List (Fin N)) (A : Mat V Dd) (v : Fin V) (d : Fin Dd),
      (l.foldl (fun acc n =>
          (List.finRange T).foldl
            (fun acc2 t => scatterAdd acc2 (x n t) (fun d2 => dout n t d2)) acc) A) v d
        = A v d + (l.map (fun n =>
            ((List.finRange T).map (fun t => if x n t = v then dout n t d else 0)).sum)).sum := by
  intro l
  induction l with
  | nil => intro A v d; simp
  | cons n ns ih =>
      intro A v d
      simp only [List.foldl_cons, List.map_cons, List.sum_cons]
      rw [ih, foldl_scatter_inner]
      ring

/-- C7: `word_embedding_backward` returns the scatter-add gradient: row
`v` of `dW` is the sum of all `dout` slices whose index `x n t` equals
`v`, accumulating repeated indices; with an all-ones upstream gradient
each entry of row `v` is the number of occurrences of `v` in `x`. -/
theorem word_embedding_backward_spec :
    (∀ (N T V Dd : Nat) (x : Fin N → Fin T → Fin V) (W : Mat V Dd)
        (dout : Fin N → Fin T → Fin Dd → ℝ) (v : Fin V) (d : Fin Dd),
        word_embedding_backward dout (x, W) v d
          = ∑ n, ∑ t, if x n t = v then dout n t d else 0) ∧
    (∀ (N T V Dd : Nat) (x : Fin N → Fin T → Fin V) (W : Mat V Dd)
        (v : Fin V) (d : Fin Dd),
        word_embedding_backward (fun _ _ _ => (1 : ℝ)) (x, W) v d
          = ((Finset.univ.filter fun p : Fin N × Fin T => x p.1 p.2 = v).card : ℝ)) := by
  have main : ∀ (N T V Dd : Nat) (x : Fin N → Fin T → Fin V) (W : Mat V Dd)
      (dout : Fin N → Fin T → Fin Dd → ℝ) (v : Fin V) (d : Fin Dd),
      word_embedding_backward dout (x, W) v d
        = ∑ n, ∑ t, if x n t = v then dout n t d else 0 := by
    intro N T V Dd x W dout v d
    have hlist : ∀ n : Fin N,
        ((List.finRange T).map (fun t => if x n t = v then dout n t d else 0)).sum
          = ∑ t, if x n t = v then dout n t d else 0 :=
      fun n => (Fin.sum_univ_def _).symm
    unfold word_embedding_backward
    rw [foldl_scatter_outer]
    simp only [hlist]
    rw [← Fin.sum_univ_def]
    simp
  refine ⟨main, ?_⟩
  intro N T V Dd x W v d
  rw [main N T V Dd x W (fun _ _ _ => (1 : ℝ)) v d]
  have hprod : (∑ p : Fin N × Fin T, if x p.1 p.2 = v then (1 : ℝ) else 0)
      = ∑ n : Fin N, ∑ t : Fin T, if x n t = v then (1 : ℝ) else 0 :=
    Fintype.sum_prod_type _
  rw [← hprod, Finset.sum_boole]

/-- C5: `temporal_softmax_loss` returns the mask-weighted sum over all
(sample, timestep) pairs of the negative log of the numerically stable
softmax probability (row max subtracted before exponentiating) of the
ground-truth class, divided by `N` (the batch size, not `N*T`), together
with the gradient `(softmax_prob - one_hot) / N` zeroed at masked-out
positions; with an all-zeros mask the loss is exactly 0 and the gradient
is the zero tensor. -/
theorem temporal_softmax_loss_spec (N T V : Nat) [NeZero V]
    (x : Fin N → Fin T → Fin V → ℝ) (y : Fin N → Fin T → Fin V)
    (mask : Fin N → Fin T → Bool) :
    (temporal_softmax_loss x y mask).1
        = (∑ n, ∑ t, (if mask n t then (1 : ℝ) else 0) *
            (-Real.log (Real.exp (x n t (y n t) - rowMax (x n t)) /
              ∑ v, Real.exp (x n t v - rowMax (x n t))))) / N ∧
    (∀ n t v, (temporal_softmax_loss x y mask).2 n t v
        = ((Real.exp (x n t v - rowMax (x n t)) /
              ∑ v2, Real.exp (x n t v2 - rowMax (x n t)))
            - if v = y n t then 1 else 0) / N * (if mask n t then (1 : ℝ) else 0)) ∧
    (temporal_softmax_loss x y (fun _ _ => false)).1 = 0 ∧
    (temporal_softmax_loss x y (fun _ _ => false)).2 = fun _ _ _ => 0 := by
  refine ⟨?_, ?_, ?_, ?_⟩
  · simp only [temporal_softmax_loss]
    rw [sum_flatten]
    simp only [unflat1_flatIdx, unflat2_flatIdx, mul_neg, Finset.sum_neg_distrib]
  · intro n t v
    simp only [temporal_softmax_loss]
    simp only [unflat1_flatIdx, unflat2_flatIdx]
  · simp [temporal_softmax_loss]
  · funext n t v
    simp [temporal_softmax_loss]

/-- Witness for C5 at the concrete shape `N = T = V = 1` with zero scores
and an all-zeros mask. -/
theorem temporal_softmax_loss_spec_witness :
    (temporal_softmax_loss (N := 1) (T := 1) (V := 1)
        (fun _ _ _ => 0) (fun _ _ => 0) (fun _ _ => false)).1 = 0 :=
  (temporal_softmax_loss_spec 1 1 1 (fun _ _ _ => 0) (fun _ _ => 0)
    (fun _ _ => false)).2.2.1

/-- Invariant of the `rnn_forward` loop: started at index `t` with the
chained hidden state after `t` steps, it fills indices `t` to
`t + fuel - 1` of the output with the chained values and leaves all other
indices untouched. -/
theorem rnn_forward_go_chain {N D H : Nat} (x : Nat → Mat N D) (h0 : Mat N H)
    (Wx : Mat D H) (Wh : Mat H H) (b : Vec H) :
    ∀ (fuel t : Nat) (hacc : Nat → Mat N H) (cacc : Nat → RNNCache N D H) (s : Nat),
      (rnn_forward_go x Wx Wh b fuel t (rnn_chain x h0 Wx Wh b t) hacc cacc).1 s
        = if t ≤ s ∧ s < t + fuel then rnn_chain x h0 Wx Wh b (s + 1) else hacc s := by
  intro fuel
  induction fuel with
  | zero =>
      intro t hacc cacc s
      simp only [rnn_forward_go]
      rw [if_neg (by omega)]
  | succ fuel ih =>
      intro t hacc cacc s
      simp only [rnn_forward_go]
      rw [show (rnn_step_forward (x t) (rnn_chain x h0 Wx Wh b t) Wx Wh b).1
            = rnn_chain x h0 Wx Wh b (t + 1) from rfl]
      rw [ih (t + 1) _ _ s]
      by_cases h1 : s = t
      · subst h1
        rw [if_neg (by omega), if_pos rfl, if_pos (by omega)]
      · by_cases h2 : t + 1 ≤ s ∧ s < t + 1 + fuel
        · rw [if_pos h2, if_pos (by omega)]
        · rw [if_neg h2, if_neg h1, if_neg (by omega)]

/-- Invariant of the `lstm_forward` loop: as `rnn_forward_go_chain`, with
the chained hidden and cell state threaded together. -/
theorem lstm_forward_go_chain {N D H : Nat} (x : Nat → Mat N D) (h0 : Mat N H)
    (Wx : Mat D (4 * H)) (Wh : Mat H (4 * H)) (b : Vec (4 * H)) :
    ∀ (fuel t : Nat) (hacc : Nat → Mat N H) (cacc : Nat → LSTMCache N D H) (s : Nat),
      (lstm_forward_go x Wx Wh b fuel t (lstm_chain x h0 Wx Wh b t).1
          (lstm_chain x h0 Wx Wh b t).2 hacc cacc).1 s
        = if t ≤ s ∧ s < t + fuel then (lstm_chain x h0 Wx Wh b (s + 1)).1 else hacc s := by
  intro fuel
  induction fuel with
  | zero =>
      intro t hacc cacc s
      simp only [lstm_forward_go]
      rw [if_neg (by omega)]
  | succ fuel ih =>
      intro t hacc cacc s
      simp only [lstm_forward_go]
      rw [show (lstm_step_forward (x t) (lstm_chain x h0 Wx Wh b t).1
            (lstm_chain x h0 Wx Wh b t).2 Wx Wh b).1
            = (lstm_chain x h0 Wx Wh b (t + 1)).1 from rfl]
      rw [show (lstm_step_forward (x t) (lstm_chain x h0 Wx Wh b t).1
            (lstm_chain x h0 Wx Wh b t).2 Wx Wh b).2.1
            = (lstm_chain x h0 Wx Wh b (t + 1)).2 from rfl]
      rw [ih (t + 1) _ _ s]
      by_cases h1 : s = t
      · subst h1
        rw [if_neg (by omega), if_pos rfl, if_pos (by omega)]
      · by_cases h2 : t + 1 ≤ s ∧ s < t + 1 + fuel
        · rw [if_pos h2, if_pos (by omega)]
        · rw [if_neg h2, if_neg h1, if_neg (by omega)]

/-- C4: for every timestep below the sequence length, the hidden state
output of `rnn_forward` (respectively `lstm_forward`) equals the result
of manually chaining calls of the corresponding step forward, feeding
each step output hidden (and, for the LSTM, cell) state into the next
step; for the LSTM the initial cell state of the chain is all zeros. -/
theorem forward_chain_equiv :
    (∀ (N D H T : Nat) (x : Nat → Mat N D) (h0 : Mat N H)
        (Wx : Mat D H) (Wh : Mat H H) (b : Vec H) (t : Nat), t < T →
        (rnn_forward T x h0 Wx Wh b).1 t = rnn_chain x h0 Wx Wh b (t + 1)) ∧
    (∀ (N D H : Nat) (x : Nat → Mat N D) (h0 : Mat N H)
        (Wx : Mat D (4 * H)) (Wh : Mat H (4 * H)) (b : Vec (4 * H)),
        (lstm_chain x h0 Wx Wh b 0).2 = 0) ∧
    (∀ (N D H T : Nat) (x : Nat → Mat N D) (h0 : Mat N H)
        (Wx : Mat D (4 * H)) (Wh : Mat H (4 * H)) (b : Vec (4 * H)) (t : Nat), t < T →
        (lstm_forward T x h0 Wx Wh b).1 t = (lstm_chain x h0 Wx Wh b (t + 1)).1) := by
  refine ⟨?_, fun N D H x h0 Wx Wh b => rfl, ?_⟩
  · intro N D H T x h0 Wx Wh b t ht
    unfold rnn_forward
    conv_lhs => rw [show h0 = rnn_chain x h0 Wx Wh b 0 from rfl]
    rw [rnn_forward_go_chain x h0 Wx Wh b T 0 _ _ t]
    rw [if_pos (by omega)]
  · intro N D H T x h0 Wx Wh b t ht
    unfold lstm_forward
    conv_lhs => rw [show h0 = (lstm_chain x h0 Wx Wh b 0).1 from rfl]
    conv_lhs => rw [show (0 : Mat N H) = (lstm_chain x h0 Wx Wh b 0).2 from rfl]
    rw [lstm_forward_go_chain x h0 Wx Wh b T 0 _ _ t]
    rw [if_pos (by omega)]

/-- Witness for C4 at the concrete length `T = 1` with zero inputs. -/
theorem forward_chain_equiv_witness :
    (rnn_forward (H := 1) 1 wdh 0 0 0 0).1 0 = rnn_chain (H := 1) wdh 0 0 0 0 1 :=
  forward_chain_equiv.1 1 1 1 1 wdh 0 0 0 0 0 (by norm_num)

/-- Invariant of the `rnn_backward` loop: when the loop entry at index `m`
receives the fed gradient `rnn_fed ... (Tm1 - m)`, it produces the
per-step `dx` entries, the accumulated parameter gradient sums over the
processed timesteps `0..m`, and the `dprev_h` of the final `t = 0` step. -/
theorem rnn_backward_go_spec {N D H : Nat} (dh : Nat → Mat N H)
    (cache : Nat → RNNCache N D H) (Tm1 : Nat) :
    ∀ m, m ≤ Tm1 →
      (∀ s, s ≤ m →
        (rnn_backward_go dh cache m (rnn_fed dh cache Tm1 (Tm1 - m))).1 s
          = (rnn_step_backward (rnn_fed dh cache Tm1 (Tm1 - s)) (cache s)).1) ∧
      (∀ s, m < s →
        (rnn_backward_go dh cache m (rnn_fed dh cache Tm1 (Tm1 - m))).1 s = 0) ∧
      ((rnn_backward_go dh cache m (rnn_fed dh cache Tm1 (Tm1 - m))).2.1
          = (rnn_step_backward (rnn_fed dh cache Tm1 Tm1) (cache 0)).2.1) ∧
      ((rnn_backward_go dh cache m (rnn_fed dh cache Tm1 (Tm1 - m))).2.2.1
          = ∑ s ∈ Finset.range (m + 1),
              (rnn_step_backward (rnn_fed dh cache Tm1 (Tm1 - s)) (cache s)).2.2.1) ∧
      ((rnn_backward_go dh cache m (rnn_fed dh cache Tm1 (Tm1 - m))).2.2.2.1
          = ∑ s ∈ Finset.range (m + 1),
              (rnn_step_backward (rnn_fed dh cache Tm1 (Tm1 - s)) (cache s)).2.2.2.1) ∧
      ((rnn_backward_go dh cache m (rnn_fed dh cache Tm1 (Tm1 - m))).2.2.2.2
          = ∑ s ∈ Finset.range (m + 1),
              (rnn_step_backward (rnn_fed dh cache Tm1 (Tm1 - s)) (cache s)).2.2.2.2) := by
  intro m
  induction m with
  | zero =>
      intro _
      refine ⟨?_, ?_, ?_, ?_, ?_, ?_⟩
      · intro s hs
        have hs0 : s = 0 := by omega
        subst hs0
        simp [rnn_backward_go]
      · intro s hs
        simp only [rnn_backward_go]
        rw [if_neg (by omega)]
      · simp only [rnn_backward_go, Nat.sub_zero]
      · simp [rnn_backward_go]
      · simp [rnn_backward_go]
      · simp [rnn_backward_go]
  | succ m ih =>
      intro hm
      have hrec := ih (by omega)
      have key : rnn_fed dh cache Tm1 (Tm1 - m)
          = fun n h => dh m n h
              + (rnn_step_backward (rnn_fed dh cache Tm1 (Tm1 - (m + 1)))
                  (cache (m + 1))).2.1 n h := by
        have h1 : Tm1 - m = (Tm1 - (m + 1)) + 1 := by omega
        rw [h1]
        simp only [rnn_fed]
        have h2 : Tm1 - (Tm1 - (m + 1) + 1) = m := by omega
        have h3 : Tm1 - (Tm1 - (m + 1)) = m + 1 := by omega
        rw [h2, h3]
      refine ⟨?_, ?_, ?_, ?_, ?_, ?_⟩
      · intro s hs
        simp only [rnn_backward_go]
        rw [← key]
        by_cases h1 : s = m + 1
        · subst h1
          rw [if_pos rfl]
        · rw [if_neg h1]
          exact hrec.1 s (by omega)
      · intro s hs
        simp only [rnn_backward_go]
        rw [← key]
        rw [if_neg (by omega)]
        exact hrec.2.1 s (by omega)
      · simp only [rnn_backward_go]
        rw [← key]
        exact hrec.2.2.1
      · simp only [rnn_backward_go]
        rw [← key]
        rw [hrec.2.2.2.1]
        exact (Finset.sum_range_succ _ (m + 1)).symm
      · simp only [rnn_backward_go]
        rw [← key]
        rw [hrec.2.2.2.2.1]
        exact (Finset.sum_range_succ _ (m + 1)).symm
      · simp only [rnn_backward_go]
        rw [← key]
        rw [hrec.2.2.2.2.2]
        exact (Finset.sum_range_succ _ (m + 1)).symm

/-- C3: `rnn_backward` on a sequence of length `T + 1` iterates from the
last timestep down to 0; the hidden-state gradient fed to step `t` is
`dh t` plus the `dprev_h` returned by the backward call of step `t + 1`,
except at the last timestep where it is the external `dh` alone
(`rnn_fed ... k` is the fed gradient `k` steps below the last); the
per-step `dx` slices are the step backward outputs, the parameter
gradients `dWx`, `dWh`, `db` are the sums over all timesteps of the
per-step outputs, and `dh0` is the `dprev_h` produced by the `t = 0`
call. -/
theorem rnn_backward_spec {N D H : Nat} (T : Nat) (dh : Nat → Mat N H)
    (cache : Nat → RNNCache N D H) :
    (∀ t, t ≤ T → (rnn_backward (T + 1) dh cache).1 t
        = (rnn_step_backward (rnn_fed dh cache T (T - t)) (cache t)).1) ∧
    ((rnn_backward (T + 1) dh cache).2.1
        = (rnn_step_backward (rnn_fed dh cache T T) (cache 0)).2.1) ∧
    ((rnn_backward (T + 1) dh cache).2.2.1
        = ∑ t ∈ Finset.range (T + 1),
            (rnn_step_backward (rnn_fed dh cache T (T - t)) (cache t)).2.2.1) ∧
    ((rnn_backward (T + 1) dh cache).2.2.2.1
        = ∑ t ∈ Finset.range (T + 1),
            (rnn_step_backward (rnn_fed dh cache T (T - t)) (cache t)).2.2.2.1) ∧
    ((rnn_backward (T + 1) dh cache).2.2.2.2
        = ∑ t ∈ Finset.range (T + 1),
            (rnn_step_backward (rnn_fed dh cache T (T - t)) (cache t)).2.2.2.2) ∧
    (rnn_fed dh cache T 0 = dh T) ∧
    (∀ t, t < T → rnn_fed dh cache T (T - t)
        = fun n h => dh t n h
            + (rnn_step_backward (rnn_fed dh cache T (T - (t + 1)))
                (cache (t + 1))).2.1 n h) := by
  have hmain := rnn_backward_go_spec dh cache T T le_rfl
  have hTT : T - T = 0 := by omega
  rw [hTT] at hmain
  have hfed0 : rnn_fed dh cache T 0 = dh T := rfl
  rw [hfed0] at hmain
  have hgo : rnn_backward (T + 1) dh cache = rnn_backward_go dh cache T (dh T) := rfl
  refine ⟨?_, ?_, ?_, ?_, ?_, hfed0, ?_⟩
  · intro t ht
    rw [hgo]
    exact hmain.1 t ht
  · rw [hgo]
    exact hmain.2.2.1
  · rw [hgo]
    exact hmain.2.2.2.1
  · rw [hgo]
    exact hmain.2.2.2.2.1
  · rw [hgo]
    exact hmain.2.2.2.2.2
  · intro t ht
    have h1 : T - t = (T - (t + 1)) + 1 := by omega
    rw [h1]
    simp only [rnn_fed]
    have h2 : T - (T - (t + 1) + 1) = t := by omega
    have h3 : T - (T - (t + 1)) = t + 1 := by omega
    rw [h2, h3]

/-- Witness for C3 at the concrete length 1 (so `T = 0`) with zero
upstream gradients and caches, discharging the step bound `0 ≤ 0`. -/
theorem rnn_backward_spec_witness :
    (rnn_backward 1 wdh wRNNCaches).1 0
      = (rnn_step_backward (rnn_fed wdh wRNNCaches 0 (0 - 0)) (wRNNCaches 0)).1 :=
  (rnn_backward_spec 0 wdh wRNNCaches).1 0 (by norm_num)

end CS231n
